import Mathlib

/-
Verification development for the apicem Go client library
(src/apic-em/apicem.go).  The shared transport core is shallowly embedded:

* Go strings are byte sequences.  We model them as Lean `String`s whose
  characters all have code points below 256, each character standing for one
  byte (predicate `GoByteStr`).  The percent-escaping machinery of `net/url`
  operates byte by byte, which under this representation is character by
  character.
* Stateful Go code (`*Client` mutation, option functions) is translated to
  explicit state passing; fallible Go code returning `(T, error)` is
  translated to `Except`.
* External serialization capabilities (`encoding/json`, `go-querystring`)
  are treated as given, per the repository's layering: JSON (un)marshalling
  outcomes are passed in as function parameters or already-computed values,
  and `query.Values opt` output is passed in as a `Values` list.
* `net/url` and `net/http` library behaviour that the core relies on
  (URL parsing/printing, query parse/encode, method validation) is embedded
  directly, restricted to the query-relevant structure: a URL is split into
  the part before the query, the raw query, and the fragment.
-/

/- ---------------------------------------------------------------- -/
/- Character and list helpers for the net/url query machinery       -/
/- ---------------------------------------------------------------- -/

/-- Characters that `net/url` leaves unescaped in a query component:
ASCII alphanumerics and `-` `_` `.` `~`. -/
def isUnreservedChar (c : Char) : Bool :=
  (65 ≤ c.toNat && c.toNat ≤ 90) || (97 ≤ c.toNat && c.toNat ≤ 122) ||
  (48 ≤ c.toNat && c.toNat ≤ 57) ||
  c.toNat == 45 || c.toNat == 95 || c.toNat == 46 || c.toNat == 126

/-- Upper-case hexadecimal digit for a nibble, as in Go's escaping table. -/
def hexUpper : Nat → Char
  | 0 => '0' | 1 => '1' | 2 => '2' | 3 => '3' | 4 => '4'
  | 5 => '5' | 6 => '6' | 7 => '7' | 8 => '8' | 9 => '9'
  | 10 => 'A' | 11 => 'B' | 12 => 'C' | 13 => 'D' | 14 => 'E'
  | _ => 'F'

/-- Value of a hexadecimal digit character, accepting both cases
(Go's `ishex`/`unhex`). -/
def hexVal (c : Char) : Option Nat :=
  if 48 ≤ c.toNat ∧ c.toNat ≤ 57 then some (c.toNat - 48)
  else if 97 ≤ c.toNat ∧ c.toNat ≤ 102 then some (c.toNat - 87)
  else if 65 ≤ c.toNat ∧ c.toNat ≤ 70 then some (c.toNat - 55)
  else none

/-- Escape one byte as `url.QueryEscape` does: unreserved bytes kept,
space becomes `+`, everything else becomes `%XX`. -/
def escChar (c : Char) : List Char :=
  if isUnreservedChar c then [c]
  else if c.toNat == 32 then ['+']
  else ['%', hexUpper (c.toNat / 16), hexUpper (c.toNat % 16)]

/-- `url.QueryEscape` over a byte string. -/
def escChars : List Char → List Char
  | [] => []
  | c :: rest => escChar c ++ escChars rest

/-- `url.QueryUnescape` over a byte string: `%XX` decodes to a byte, `+`
decodes to space, a malformed `%` sequence is an error (`none`). -/
def unescapeChars : List Char → Option (List Char)
  | [] => some []
  | c :: rest =>
    if c.toNat == 37 then
      match rest with
      | h1 :: h2 :: rest2 =>
        match hexVal h1, hexVal h2, unescapeChars rest2 with
        | some d1, some d2, some tail => some (Char.ofNat (16 * d1 + d2) :: tail)
        | _, _, _ => none
      | _ => none
    else if c.toNat == 43 then
      match unescapeChars rest with
      | some tail => some (' ' :: tail)
      | none => none
    else
      match unescapeChars rest with
      | some tail => some (c :: tail)
      | none => none

/-- Cut a character list at the first occurrence of a separator,
returning the parts before and after it (the whole list and `[]` when the
separator does not occur) — the splitting used by URL parsing. -/
def cutAtChar (c : Char) : List Char → List Char × List Char
  | [] => ([], [])
  | x :: xs =>
    if x = c then ([], xs)
    else
      let r := cutAtChar c xs
      (x :: r.1, r.2)

/-- Split a character list on every occurrence of a separator. -/
def splitOnChar (c : Char) : List Char → List (List Char)
  | [] => [[]]
  | x :: xs =>
    if x = c then [] :: splitOnChar c xs
    else
      match splitOnChar c xs with
      | [] => [[x]]
      | s :: ss => (x :: s) :: ss

/-- Join character lists with a separator character. -/
def intercalateChar (c : Char) : List (List Char) → List Char
  | [] => []
  | [s] => s
  | s :: rest => s ++ c :: intercalateChar c rest

/- ---------------------------------------------------------------- -/
/- url.Values: the multimap produced by Query()/query.Values        -/
/- ---------------------------------------------------------------- -/

/-- Model of `url.Values` (`map[string][]string`): an association list with
(one entry per key) from keys to value lists. -/
abbrev Values := List (String × List String)

/-- Map read with zero value: `v[k]`, the empty list when absent. -/
def lookupV : Values → String → List String
  | [], _ => []
  | p :: rest, k => if p.1 = k then p.2 else lookupV rest k

/-- Map key membership test. -/
def containsKeyV : Values → String → Bool
  | [], _ => false
  | p :: rest, k => p.1 == k || containsKeyV rest k

/-- Model of `m[k] = append(m[k], v)`: append one value to a key's list. -/
def appendV : Values → String → String → Values
  | [], k, v => [(k, [v])]
  | p :: rest, k, v =>
    if p.1 = k then (p.1, p.2 ++ [v]) :: rest else p :: appendV rest k v

/-- Model of map assignment `m[k] = vs`. -/
def setV : Values → String → List String → Values
  | [], k, vs => [(k, vs)]
  | p :: rest, k, vs =>
    if p.1 = k then (k, vs) :: rest else p :: setV rest k vs

/-- The merge loop of addOptions: `for k, v := range newValues
{ origValues[k] = v }`. -/
def mergeV (orig new : Values) : Values :=
  new.foldl (fun m p => setV m p.1 p.2) orig

/-- Flatten a Values map to its key/value pairs, keys repeated per value,
as the encoding loop of `url.Values.Encode` walks it. -/
def flattenV : Values → List (String × String)
  | [] => []
  | p :: rest => p.2.map (fun v => (p.1, v)) ++ flattenV rest

/-- One encoded `key=value` segment of a query string. -/
def escSeg (p : String × String) : List Char :=
  escChars p.1.data ++ '=' :: escChars p.2.data

/-- Lexicographic comparison of byte strings, the order `sort.Strings`
sorts keys by. -/
def listLeb : List Char → List Char → Bool
  | [], _ => true
  | _ :: _, [] => false
  | x :: xs, y :: ys => if x = y then listLeb xs ys else decide (x < y)

/-- Key order for `url.Values.Encode`'s sort of the key set. -/
def keyLeb (a b : String × List String) : Bool := listLeb a.1.data b.1.data

/-- Model of `url.Values.Encode`: sort the entries by key (`sort.Strings`
on the key set), escape each key/value pair, join the `key=value` segments
with `&`. -/
def encodeV (m : Values) : String :=
  String.mk (intercalateChar '&'
    ((flattenV (List.insertionSort (fun a b => keyLeb a b = true) m)).map
      escSeg))

/-- Process one `&`-separated segment of a raw query, as the loop body of
`url.ParseQuery` does: skip an empty segment or one containing a raw
semicolon, cut at the first `=`, unescape key and value (skipping the pair
if either fails), and append to the map. -/
def parseSeg (m : Values) (seg : List Char) : Values :=
  if seg.isEmpty then m
  else if seg.contains ';' then m
  else
    match unescapeChars (cutAtChar '=' seg).1,
          unescapeChars (cutAtChar '=' seg).2 with
    | some k, some v => appendV m (String.mk k) (String.mk v)
    | _, _ => m

/-- Model of `url.ParseQuery` as used by `URL.Query()` (errors on
individual pairs are swallowed: the pair is skipped). -/
def parseQuery (q : String) : Values :=
  (splitOnChar '&' q.data).foldl parseSeg []

/- ---------------------------------------------------------------- -/
/- Requests, responses and error values                              -/
/- ---------------------------------------------------------------- -/

/-- Model of `http.Request` as the library observes it: method, URL in
string form, body payload and the headers added by `Header.Add`. -/
structure Request where
  method : String
  url : String
  body : String
  headers : List (String × String)
  deriving Repr, DecidableEq

/-- First-match header read over the added headers. -/
def headerGet : List (String × String) → String → Option String
  | [], _ => none
  | p :: rest, k => if p.1 = k then some p.2 else headerGet rest k

/-- Decidable equality for the outcomes of fallible reads, used by the
derived equality tests below. -/
instance {α β : Type} [DecidableEq α] [DecidableEq β] :
    DecidableEq (Except α β) := fun a b =>
  match a, b with
  | .error x, .error y =>
    if h : x = y then isTrue (by rw [h]) else isFalse (by simp [h])
  | .ok x, .ok y =>
    if h : x = y then isTrue (by rw [h]) else isFalse (by simp [h])
  | .error _, .ok _ => isFalse (by simp)
  | .ok _, .error _ => isFalse (by simp)

/-- Model of `http.Response` as the library observes it: the status code,
the originating request, and the outcome of reading the body to the end
(`ioutil.ReadAll`): either the full contents or a read error. -/
structure HTTPResponse where
  statusCode : Int
  request : Request
  bodyContents : Except String String
  deriving Repr, DecidableEq

/-- The fields `json.Unmarshal` fills in an `ErrorResponse` target:
message, sub-error descriptions, tracking id. -/
structure ErrFields where
  message : String
  errors : List String
  trackingID : String
  deriving Repr, DecidableEq

/-- Model of `ErrorResponse`: the response that caused the error plus the
parsed error-body fields. -/
structure ErrorResponse where
  httpResponse : HTTPResponse
  message : String
  errors : List String
  trackingID : String
  deriving Repr, DecidableEq

/-- Model of `(*ErrorResponse).Error()`:
`fmt.Sprintf("%v %v: %d %v", method, URL, status, message)`. -/
def ErrorResponse.render (r : ErrorResponse) : String :=
  r.httpResponse.request.method ++ " " ++ r.httpResponse.request.url ++ ": " ++
    toString r.httpResponse.statusCode ++ " " ++ r.message

/-- The error values the library can return, tagged by kind: URL parse
errors, transport errors, request build errors, body encode errors, JSON
unmarshal errors, body copy/decode errors, and API errors
(`*ErrorResponse`). -/
inductive GoErr where
  | urlError (msg : String)
  | transportError (msg : String)
  | requestError (msg : String)
  | encodeError (msg : String)
  | jsonError (msg : String)
  | copyError (msg : String)
  | decodeError (msg : String)
  | apiError (er : ErrorResponse)
  deriving Repr, DecidableEq

/- ---------------------------------------------------------------- -/
/- URLs and addOptions                                               -/
/- ---------------------------------------------------------------- -/

/-- Model of `url.URL` at the granularity the library uses: the part
before the query (scheme, host and path, kept verbatim), the raw query,
and the fragment. -/
structure URLm where
  base : String
  rawQuery : String
  fragment : String
  deriving Repr, DecidableEq

/-- ASCII control characters, which `url.Parse` rejects. -/
def isCtlChar (c : Char) : Bool := c.toNat < 32 || c.toNat == 127

/-- Model of `url.Parse`: reject control characters, split off the
fragment at the first `#`, then the raw query at the first `?`. -/
def urlParse (s : String) : Except GoErr URLm :=
  if s.data.any isCtlChar then
    .error (.urlError "net/url: invalid control character in URL")
  else
    let pf := cutAtChar '#' s.data
    let bq := cutAtChar '?' pf.1
    .ok { base := String.mk bq.1, rawQuery := String.mk bq.2,
          fragment := String.mk pf.2 }

/-- Model of `url.URL.String`: the pre-query part, then `?query` when the
raw query is nonempty, then `#fragment` when the fragment is nonempty. -/
def urlString (u : URLm) : String :=
  u.base ++ (if u.rawQuery = "" then "" else "?" ++ u.rawQuery) ++
    (if u.fragment = "" then "" else "#" ++ u.fragment)

/-- Model of `addOptions`.  `opt = none` models a nil options pointer;
`some vals` models a non-nil options value whose go-querystring encoding
(the external capability `query.Values`) yields `vals`.  On a URL parse
failure Go returns the input string together with the error; we model the
error outcome. -/
def addOptions (s : String) (opt : Option Values) : Except GoErr String :=
  match opt with
  | none => .ok s
  | some newValues =>
    match urlParse s with
    | .error e => .error e
    | .ok origURL =>
      let origValues := parseQuery origURL.rawQuery
      let merged := mergeV origValues newValues
      .ok (urlString { origURL with rawQuery := encodeV merged })

/-- The query-string content of a URL string: the values recorded at a key
once the URL's raw query is parsed (empty for an unparseable URL). -/
def queryContent (s : String) (k : String) : List String :=
  match urlParse s with
  | .error _ => []
  | .ok u => lookupV (parseQuery u.rawQuery) k

/-- The URL obtained by replacing a URL value's raw query, as the
structure-update in addOptions does. -/
def withQuery (u : URLm) (q : String) : URLm :=
  { base := u.base, rawQuery := q, fragment := u.fragment }

/-- A Lean string standing for a Go byte string: every character is one
byte. -/
def GoByteStr (s : String) : Prop := ∀ c ∈ s.data, c.toNat < 256

/-- All keys and values of a Values map are byte strings. -/
def ValuesByte (m : Values) : Prop :=
  ∀ p ∈ m, GoByteStr p.1 ∧ ∀ v ∈ p.2, GoByteStr v

/-- The keys of a Values map are pairwise distinct (a Go map cannot hold a
key twice). -/
def NodupKeysV (m : Values) : Prop := (m.map Prod.fst).Nodup

instance (s : String) : Decidable (GoByteStr s) :=
  decidable_of_iff (∀ c ∈ s.data, c.toNat < 256) Iff.rfl

instance (m : Values) : Decidable (ValuesByte m) :=
  decidable_of_iff (∀ p ∈ m, GoByteStr p.1 ∧ ∀ v ∈ p.2, GoByteStr v) Iff.rfl

instance (m : Values) : Decidable (NodupKeysV m) :=
  decidable_of_iff ((m.map Prod.fst).Nodup) Iff.rfl

/-- The values recorded for a key in a flat pair list, in order. -/
def valsOf (ps : List (String × String)) (k : String) : List String :=
  ps.filterMap (fun p => if p.1 = k then some p.2 else none)

/-- Characters that query escaping can emit: unreserved bytes, `+`, `%`
and hexadecimal digits. -/
def encSafe (c : Char) : Bool :=
  isUnreservedChar c || c.toNat == 43 || c.toNat == 37 ||
  (48 ≤ c.toNat && c.toNat ≤ 57) || (65 ≤ c.toNat && c.toNat ≤ 70)

/- ---------------------------------------------------------------- -/
/- Client construction and options                                   -/
/- ---------------------------------------------------------------- -/

def libraryVersion : String := "0.1.0"

/-- The library's default user agent token, `"apicem/" + libraryVersion`. -/
def userAgent : String := "apicem/" ++ libraryVersion

def mediaType : String := "application/json"

def defaultBaseURL : String := "https://sandboxapic.cisco.com/api"

def authorizationToken : String := ""

/-- Model of `Client`: base URL, user agent and authorization token.  The
transport handle, callback and the ~35 per-resource service views (each a
zero-size view over this same state) carry no independent data and are
omitted. -/
structure Client where
  BaseURL : URLm
  UserAgent : String
  Authorization : String
  deriving Repr, DecidableEq

/-- Model of `NewClient`: default base URL (its parse error ignored, as in
the source), default user agent, empty token. -/
def NewClient : Client :=
  { BaseURL :=
      match urlParse defaultBaseURL with
      | .ok u => u
      | .error _ => { base := "", rawQuery := "", fragment := "" }
  , UserAgent := userAgent
  , Authorization := authorizationToken }

/-- Model of `ClientOpt`: Go mutates the client and returns an error; we
pass the state explicitly. -/
abbrev ClientOpt := Client → Except GoErr Client

/-- The option-application loop of `New`: apply each option in order,
aborting on the first failure. -/
def applyOpts : Client → List ClientOpt → Except GoErr Client
  | c, [] => .ok c
  | c, opt :: rest =>
    match opt c with
    | .error e => .error e
    | .ok c2 => applyOpts c2 rest

/-- Model of `New`: build the default client, then run the option loop. -/
def New (opts : List ClientOpt) : Except GoErr Client :=
  applyOpts NewClient opts

/-- Model of `SetBaseURL`: parse the given string, fail on a parse error,
otherwise replace the base URL. -/
def SetBaseURL (bu : String) : ClientOpt := fun c =>
  match urlParse bu with
  | .error e => .error e
  | .ok u => .ok { c with BaseURL := u }

/-- Model of `SetUserAgent`: `fmt.Sprintf("%s+%s", ua, c.UserAgent)`. -/
def SetUserAgent (ua : String) : ClientOpt := fun c =>
  .ok { c with UserAgent := ua ++ "+" ++ c.UserAgent }

/- ---------------------------------------------------------------- -/
/- NewRequest                                                        -/
/- ---------------------------------------------------------------- -/

/-- ASCII upper-casing of one byte, as `strings.ToUpper` acts on the
ASCII method names this API uses. -/
def asciiUpper (c : Char) : Char :=
  if 97 ≤ c.toNat ∧ c.toNat ≤ 122 then Char.ofNat (c.toNat - 32) else c

/-- Model of `strings.ToUpper` on the byte strings this library passes
(HTTP method names are ASCII token strings). -/
def goToUpper (s : String) : String := String.mk (s.data.map asciiUpper)

/-- RFC 7230 token characters, which `http.NewRequest` requires of a
method name. -/
def isTokenChar (c : Char) : Bool :=
  (48 ≤ c.toNat && c.toNat ≤ 57) || (65 ≤ c.toNat && c.toNat ≤ 90) ||
  (97 ≤ c.toNat && c.toNat ≤ 122) ||
  c.toNat == 33 || c.toNat == 35 || c.toNat == 36 || c.toNat == 37 ||
  c.toNat == 38 || c.toNat == 39 || c.toNat == 42 || c.toNat == 43 ||
  c.toNat == 45 || c.toNat == 46 || c.toNat == 94 || c.toNat == 95 ||
  c.toNat == 96 || c.toNat == 124 || c.toNat == 126

/-- Method validity check of `http.NewRequest`: nonempty, all token
characters. -/
def validMethod (m : String) : Bool := !m.data.isEmpty && m.data.all isTokenChar

/-- Whether a character list contains the scheme separator of an
absolute URL. -/
def hasSchemeSep : List Char → Bool
  | ':' :: '/' :: '/' :: _ => true
  | _ :: rest => hasSchemeSep rest
  | [] => false

/-- Whether a reference URL is absolute (carries a scheme). -/
def isAbsoluteRef (u : URLm) : Bool := hasSchemeSep u.base.data

/-- Characters up to and including the last slash. -/
def dropLastSegment (l : List Char) : List Char :=
  (l.reverse.dropWhile (fun c => !(c == '/'))).reverse

/-- Modelled in simplified form: `url.URL.ResolveReference`.  An absolute
reference replaces the base; otherwise the reference path is merged onto
the base path with the base's last segment dropped, and query and fragment
come from the reference.  The claims settled here do not depend on the
precise resolution algorithm. -/
def resolveReference (base ref : URLm) : URLm :=
  if isAbsoluteRef ref then ref
  else { base := String.mk (dropLastSegment base.base.data) ++ ref.base
       , rawQuery := ref.rawQuery, fragment := ref.fragment }

/-- Model of `http.NewRequest`: validate the method, then build the
request with an empty header set. -/
def httpNewRequest (method urlS bodyS : String) : Except GoErr Request :=
  if validMethod method then
    .ok { method := method, url := urlS, body := bodyS, headers := [] }
  else .error (.requestError "net/http: invalid method")

/-- Model of `(*Client).NewRequest`.  `body = none` models a nil body;
`some out` models a non-nil body value whose JSON encoding (the external
`encoding/json` capability) has outcome `out`: an encode error or the
encoded payload written to the buffer. -/
def NewRequest (c : Client) (method urlStr : String)
    (body : Option (Except String String)) : Except GoErr Request :=
  let methodU := goToUpper method
  match urlParse urlStr with
  | .error e => .error e
  | .ok rel =>
    let u := resolveReference c.BaseURL rel
    match body with
    | some (.error m) => .error (.encodeError m)
    | _ =>
      let buf :=
        match body with
        | some (.ok enc) => enc
        | _ => ""
      match httpNewRequest methodU (urlString u) buf with
      | .error e => .error e
      | .ok req =>
        .ok { req with
              headers := req.headers ++
                [("Content-Type", mediaType), ("Accept", mediaType),
                 ("User-Agent", c.UserAgent)] ++
                (if c.Authorization = "" then []
                 else [("X-Auth-Token", c.Authorization)]) }

/- ---------------------------------------------------------------- -/
/- CheckResponse and Do                                              -/
/- ---------------------------------------------------------------- -/

/-- Model of `CheckResponse`.  `unmarshal` is the external
`encoding/json` capability for an `*ErrorResponse` target: for a given
body it either fails with a message or yields the parsed fields.  The
source reads the body, runs one unconditional `json.Unmarshal` whose
result value is discarded (its field mutations modeled by `er1`), and for
nonempty data runs a second `json.Unmarshal`, returning its error when it
fails; otherwise the `*ErrorResponse` is returned. -/
def CheckResponse (unmarshal : String → Except String ErrFields)
    (r : HTTPResponse) : Option GoErr :=
  if 200 ≤ r.statusCode ∧ r.statusCode ≤ 299 then none
  else
    let er0 : ErrorResponse :=
      { httpResponse := r, message := "", errors := [], trackingID := "" }
    match r.bodyContents with
    | .error _ => some (.apiError er0)
    | .ok data =>
      let er1 :=
        match unmarshal data with
        | .ok f =>
          { er0 with
            message := f.message
            errors := f.errors
            trackingID := f.trackingID }
        | .error _ => er0
      if data.length > 0 then
        match unmarshal data with
        | .error msg => some (.jsonError msg)
        | .ok _ => some (.apiError er1)
      else some (.apiError er1)

/-- Model of `Response`: the wrapped response plus the monitor URI (its
zero value after `newResponse`). -/
structure ResponseW where
  response : HTTPResponse
  Monitor : String
  deriving Repr, DecidableEq

/-- Model of `newResponse`. -/
def newResponse (r : HTTPResponse) : ResponseW :=
  { response := r, Monitor := "" }

/-- The decode destination of `Do`: nil, an `io.Writer` sink, or a JSON
decode target.  For the two active forms the interaction outcome with the
response body (the external `io.Copy` / `json.Decode` capability) is
carried alongside. -/
inductive DecodeDest where
  | noDest
  | writer (copyOutcome : Except String Unit)
  | target (decodeOutcome : Except String Unit)
  deriving Repr, DecidableEq

/-- Model of `(*Client).Do`.  `transported` is the outcome of
`c.client.Do(req)` (the external transport).  The Go function returns the
pair `(*Response, error)`; both components are modeled.  The completion
callback and the deferred drain-and-close are side effects that do not
alter the returned pair (the returns are unnamed, so the deferred
assignment to the local `err` cannot change them) and are not modeled. -/
def Do (unmarshal : String → Except String ErrFields)
    (transported : Except GoErr HTTPResponse) (v : DecodeDest) :
    Option ResponseW × Option GoErr :=
  match transported with
  | .error e => (none, some e)
  | .ok resp =>
    let response := newResponse resp
    match CheckResponse unmarshal resp with
    | some e => (some response, some e)
    | none =>
      match v with
      | .noDest => (some response, none)
      | .writer (.error m) => (none, some (.copyError m))
      | .writer (.ok _) => (some response, none)
      | .target (.error m) => (none, some (.decodeError m))
      | .target (.ok _) => (some response, none)

/- ---------------------------------------------------------------- -/
/- Concrete fixtures for witnesses and bug-exhibiting evaluations    -/
/- ---------------------------------------------------------------- -/

/-- The request NewRequest builds for a GET of the ticket path on a fresh
client. -/
def reqTicket : Request :=
  { method := "GET", url := "https://sandboxapic.cisco.com/ticket",
    body := "",
    headers := [("Content-Type", "application/json"),
                ("Accept", "application/json"),
                ("User-Agent", "apicem/0.1.0")] }

/-- A json.Unmarshal outcome for a body that is not valid JSON. -/
def uFail : String → Except String ErrFields :=
  fun _ => .error "invalid character"

/-- A 404 response whose body reads as the five bytes of a non-JSON
payload. -/
def r404 : HTTPResponse :=
  { statusCode := 404,
    request := { method := "GET",
                 url := "https://sandboxapic.cisco.com/api/ticket",
                 body := "", headers := [] },
    bodyContents := .ok "oops!" }

/-- A json.Unmarshal capability that parses the canonical not-found error
body and rejects everything else. -/
def uNotFound : String → Except String ErrFields := fun data =>
  if data = "\x7b\"message\":\"not found\"\x7d" then
    .ok { message := "not found", errors := [], trackingID := "" }
  else .error "invalid character"

/-- A 404 response carrying the canonical not-found error body. -/
def r404nf : HTTPResponse :=
  { statusCode := 404,
    request := { method := "GET",
                 url := "https://sandboxapic.cisco.com/api/ticket",
                 body := "", headers := [] },
    bodyContents := .ok "\x7b\"message\":\"not found\"\x7d" }

/-- A 204 response with an empty body. -/
def r204 : HTTPResponse :=
  { statusCode := 204,
    request := { method := "GET",
                 url := "https://sandboxapic.cisco.com/api/ticket",
                 body := "", headers := [] },
    bodyContents := .ok "" }

/- ---------------------------------------------------------------- -/
/- Character-level lemmas for the query escaping machinery           -/
/- ---------------------------------------------------------------- -/

theorem charToNat_ofNat (n : Nat) (h : n < 256) : (Char.ofNat n).toNat = n := by
  have hv : n.isValidChar := Or.inl (by omega)
  simp [Char.ofNat, hv, Char.toNat, Char.ofNatAux, UInt32.toNat]

theorem hexVal_hexUpper (n : Nat) (h : n < 16) : hexVal (hexUpper n) = some n := by
  interval_cases n <;> decide

theorem hexUpper_encSafe (n : Nat) : encSafe (hexUpper n) = true := by
  unfold hexUpper
  split <;> decide

theorem encSafe_facts (c : Char) (h : encSafe c = true) :
    c.toNat < 256 ∧ 32 ≤ c.toNat ∧ c.toNat ≠ 127 ∧ c.toNat ≠ 35 ∧
    c.toNat ≠ 38 ∧ c.toNat ≠ 59 ∧ c.toNat ≠ 61 ∧ c.toNat ≠ 63 := by
  simp [encSafe, isUnreservedChar] at h
  omega

theorem escChar_encSafe (c : Char) : ∀ d ∈ escChar c, encSafe d = true := by
  intro d hd
  unfold escChar at hd
  split at hd
  · next hu =>
    simp at hd
    subst hd
    simp [encSafe]
    exact Or.inl (Or.inl (Or.inl (Or.inl hu)))
  · split at hd
    · simp at hd
      subst hd
      decide
    · simp at hd
      rcases hd with h | h | h
      · subst h; decide
      · subst h; exact hexUpper_encSafe _
      · subst h; exact hexUpper_encSafe _

theorem escChars_encSafe (l : List Char) : ∀ d ∈ escChars l, encSafe d = true := by
  induction l with
  | nil => intro d hd; simp [escChars] at hd
  | cons c rest ih =>
    intro d hd
    simp only [escChars, List.mem_append] at hd
    rcases hd with h | h
    · exact escChar_encSafe c d h
    · exact ih d h

theorem isUnreservedChar_facts (c : Char) (h : isUnreservedChar c = true) :
    c.toNat ≠ 37 ∧ c.toNat ≠ 43 ∧ c.toNat ≠ 32 := by
  simp [isUnreservedChar] at h
  omega

theorem unescape_escChars (l : List Char) (h : ∀ c ∈ l, c.toNat < 256) :
    unescapeChars (escChars l) = some l := by
  induction l with
  | nil => rfl
  | cons c rest ih =>
    have hc : c.toNat < 256 := h c (List.mem_cons_self c rest)
    have ihr : unescapeChars (escChars rest) = some rest :=
      ih (fun d hd => h d (List.mem_cons_of_mem c hd))
    show unescapeChars (escChar c ++ escChars rest) = some (c :: rest)
    unfold escChar
    split
    · next hu =>
      obtain ⟨h37, h43, _⟩ := isUnreservedChar_facts c hu
      simp only [List.cons_append, List.nil_append]
      unfold unescapeChars
      have e37 : (c.toNat == 37) = false := by simp [h37]
      have e43 : (c.toNat == 43) = false := by simp [h43]
      simp [e37, e43, ihr]
    · next hu =>
      split
      · next h32 =>
        simp only [beq_iff_eq] at h32
        have hc32 : c = ' ' := by
          have := Char.ofNat_toNat c
          rw [h32] at this
          exact this.symm
        simp only [List.cons_append, List.nil_append]
        unfold unescapeChars
        simp [ihr, hc32]
      · next h32 =>
        simp only [List.cons_append]
        unfold unescapeChars
        have hq : (16 * (c.toNat / 16) + c.toNat % 16) = c.toNat := by omega
        simp [hexVal_hexUpper (c.toNat / 16) (by omega),
              hexVal_hexUpper (c.toNat % 16) (by omega), ihr, hq,
              Char.ofNat_toNat c]

/- ---------------------------------------------------------------- -/
/- Cutting, splitting and joining lemmas                             -/
/- ---------------------------------------------------------------- -/

theorem cutAtChar_not_mem (c : Char) (l : List Char) (h : ∀ x ∈ l, x ≠ c) :
    cutAtChar c l = (l, []) := by
  induction l with
  | nil => rfl
  | cons x xs ih =>
    have hx : x ≠ c := h x (List.mem_cons_self x xs)
    have ihr := ih (fun y hy => h y (List.mem_cons_of_mem x hy))
    simp [cutAtChar, hx, ihr]

theorem cutAtChar_append (c : Char) (a b : List Char) (h : ∀ x ∈ a, x ≠ c) :
    cutAtChar c (a ++ c :: b) = (a, b) := by
  induction a with
  | nil => simp [cutAtChar]
  | cons x xs ih =>
    have hx : x ≠ c := h x (List.mem_cons_self x xs)
    have ihr := ih (fun y hy => h y (List.mem_cons_of_mem x hy))
    simp [cutAtChar, hx, ihr]

theorem mem_cutAtChar_fst (c : Char) (l : List Char) :
    ∀ x ∈ (cutAtChar c l).1, x ∈ l := by
  induction l with
  | nil => intro x hx; simp [cutAtChar] at hx
  | cons y ys ih =>
    intro x hx
    by_cases hy : y = c
    · simp [cutAtChar, hy] at hx
    · simp only [cutAtChar, if_neg hy] at hx
      rcases List.mem_cons.mp hx with h | h
      · exact h ▸ List.mem_cons_self y ys
      · exact List.mem_cons_of_mem y (ih x h)

theorem mem_cutAtChar_snd (c : Char) (l : List Char) :
    ∀ x ∈ (cutAtChar c l).2, x ∈ l := by
  induction l with
  | nil => intro x hx; simp [cutAtChar] at hx
  | cons y ys ih =>
    intro x hx
    by_cases hy : y = c
    · simp only [cutAtChar, if_pos hy] at hx
      exact List.mem_cons_of_mem y hx
    · simp only [cutAtChar, if_neg hy] at hx
      exact List.mem_cons_of_mem y (ih x hx)

theorem cutAtChar_fst_ne (c : Char) (l : List Char) :
    ∀ x ∈ (cutAtChar c l).1, x ≠ c := by
  induction l with
  | nil => intro x hx; simp [cutAtChar] at hx
  | cons y ys ih =>
    intro x hx
    by_cases hy : y = c
    · simp [cutAtChar, hy] at hx
    · simp only [cutAtChar, if_neg hy] at hx
      rcases List.mem_cons.mp hx with h | h
      · exact h ▸ hy
      · exact ih x h

theorem splitOnChar_ne_nil (c : Char) (l : List Char) : splitOnChar c l ≠ [] := by
  induction l with
  | nil => simp [splitOnChar]
  | cons x xs ih =>
    by_cases hx : x = c
    · simp [splitOnChar, hx]
    · simp only [splitOnChar, if_neg hx]
      match hs : splitOnChar c xs with
      | [] => simp
      | s :: ss => simp

theorem splitOnChar_no_sep (c : Char) (s : List Char) (h : ∀ x ∈ s, x ≠ c) :
    splitOnChar c s = [s] := by
  induction s with
  | nil => rfl
  | cons x xs ih =>
    have hx : x ≠ c := h x (List.mem_cons_self x xs)
    have ihr := ih (fun y hy => h y (List.mem_cons_of_mem x hy))
    simp [splitOnChar, hx, ihr]

theorem splitOnChar_sep (c : Char) (s r : List Char) (h : ∀ x ∈ s, x ≠ c) :
    splitOnChar c (s ++ c :: r) = s :: splitOnChar c r := by
  induction s with
  | nil => simp [splitOnChar]
  | cons x xs ih =>
    have hx : x ≠ c := h x (List.mem_cons_self x xs)
    have ihr := ih (fun y hy => h y (List.mem_cons_of_mem x hy))
    simp only [List.cons_append, splitOnChar, if_neg hx, List.append_eq, ihr]

theorem splitOnChar_intercalate (c : Char) (ss : List (List Char))
    (hne : ss ≠ []) (h : ∀ s ∈ ss, ∀ x ∈ s, x ≠ c) :
    splitOnChar c (intercalateChar c ss) = ss := by
  induction ss with
  | nil => exact absurd rfl hne
  | cons s rest ih =>
    match rest with
    | [] =>
      show splitOnChar c s = [s]
      exact splitOnChar_no_sep c s (h s (List.mem_cons_self s []))
    | s2 :: rest2 =>
      show splitOnChar c (s ++ c :: intercalateChar c (s2 :: rest2)) = s :: s2 :: rest2
      rw [splitOnChar_sep c s _ (h s (List.mem_cons_self s _))]
      rw [ih (by simp) (fun t ht x hx => h t (List.mem_cons_of_mem s ht) x hx)]

theorem mem_splitOnChar (c : Char) (l : List Char) :
    ∀ s ∈ splitOnChar c l, ∀ x ∈ s, x ∈ l := by
  induction l with
  | nil =>
    intro s hs x hx
    simp [splitOnChar] at hs
    subst hs
    simp at hx
  | cons y ys ih =>
    intro s hs x hx
    by_cases hy : y = c
    · simp only [splitOnChar, if_pos hy] at hs
      rcases List.mem_cons.mp hs with h | h
      · subst h; simp at hx
      · exact List.mem_cons_of_mem y (ih s h x hx)
    · simp only [splitOnChar, if_neg hy] at hs
      match hsp : splitOnChar c ys with
      | [] => exact absurd hsp (splitOnChar_ne_nil c ys)
      | t :: ts =>
        rw [hsp] at hs
        rcases List.mem_cons.mp hs with h | h
        · subst h
          rcases List.mem_cons.mp hx with h2 | h2
          · exact h2 ▸ List.mem_cons_self y ys
          · exact List.mem_cons_of_mem y (ih t (hsp ▸ List.mem_cons_self t ts) x h2)
        · exact List.mem_cons_of_mem y (ih s (hsp ▸ List.mem_cons_of_mem t h) x hx)

/- ---------------------------------------------------------------- -/
/- Values lemmas                                                     -/
/- ---------------------------------------------------------------- -/

theorem containsKeyV_iff (m : Values) (k : String) :
    containsKeyV m k = true ↔ k ∈ m.map Prod.fst := by
  induction m with
  | nil => simp [containsKeyV]
  | cons p rest ih =>
    simp only [containsKeyV, Bool.or_eq_true, beq_iff_eq, ih, List.map_cons,
      List.mem_cons]
    constructor
    · rintro (h | h)
      · exact Or.inl h.symm
      · exact Or.inr h
    · rintro (h | h)
      · exact Or.inl h.symm
      · exact Or.inr h

theorem lookupV_appendV (m : Values) (k v : String) (k2 : String) :
    lookupV (appendV m k v) k2 =
      if k2 = k then lookupV m k ++ [v] else lookupV m k2 := by
  induction m with
  | nil =>
    by_cases h : k2 = k
    · subst h; simp [appendV, lookupV]
    · have h2 : ¬ k = k2 := fun e => h e.symm
      simp [appendV, lookupV, h, h2]
  | cons p rest ih =>
    by_cases hp : p.1 = k
    · by_cases h2 : k2 = k
      · subst h2; simp [appendV, lookupV, hp]
      · have h3 : ¬ k = k2 := fun e => h2 e.symm
        have h4 : ¬ p.1 = k2 := by rw [hp]; exact h3
        simp [appendV, lookupV, hp, h2, h3, h4]
    · by_cases hpk2 : p.1 = k2
      · have h3 : ¬ k2 = k := fun e => hp (hpk2.trans e)
        simp [appendV, lookupV, hp, hpk2, h3]
      · simp [appendV, lookupV, hp, hpk2, ih]

theorem lookupV_setV (m : Values) (k : String) (vs : List String) (k2 : String) :
    lookupV (setV m k vs) k2 = if k2 = k then vs else lookupV m k2 := by
  induction m with
  | nil =>
    by_cases h : k2 = k
    · subst h; simp [setV, lookupV]
    · have h2 : ¬ k = k2 := fun e => h e.symm
      simp [setV, lookupV, h, h2]
  | cons p rest ih =>
    by_cases hp : p.1 = k
    · by_cases h2 : k2 = k
      · subst h2; simp [setV, lookupV, hp]
      · have h3 : ¬ k = k2 := fun e => h2 e.symm
        simp [setV, lookupV, hp, h2, h3]
    · by_cases hpk2 : p.1 = k2
      · have h3 : ¬ k2 = k := fun e => hp (hpk2.trans e)
        simp [setV, lookupV, hp, hpk2, h3]
      · simp [setV, lookupV, hp, hpk2, ih]

theorem keys_appendV (m : Values) (k v : String) :
    (appendV m k v).map Prod.fst =
      if containsKeyV m k then m.map Prod.fst else m.map Prod.fst ++ [k] := by
  induction m with
  | nil => simp [appendV, containsKeyV]
  | cons p rest ih =>
    by_cases hp : p.1 = k
    · simp [appendV, containsKeyV, hp]
    · simp only [appendV, if_neg hp, containsKeyV, List.map_cons]
      have : (p.1 == k) = false := by simp [hp]
      rw [this]
      simp only [Bool.false_or]
      by_cases hc : containsKeyV rest k = true
      · simp [hc] at ih ⊢
        exact ih
      · simp only [Bool.not_eq_true] at hc
        simp [hc] at ih ⊢
        exact ih

theorem keys_setV (m : Values) (k : String) (vs : List String) :
    (setV m k vs).map Prod.fst =
      if containsKeyV m k then m.map Prod.fst else m.map Prod.fst ++ [k] := by
  induction m with
  | nil => simp [setV, containsKeyV]
  | cons p rest ih =>
    by_cases hp : p.1 = k
    · simp [setV, containsKeyV, hp]
    · simp only [setV, if_neg hp, containsKeyV, List.map_cons]
      have : (p.1 == k) = false := by simp [hp]
      rw [this]
      simp only [Bool.false_or]
      by_cases hc : containsKeyV rest k = true
      · simp [hc] at ih ⊢
        exact ih
      · simp only [Bool.not_eq_true] at hc
        simp [hc] at ih ⊢
        exact ih

theorem nodupKeys_appendV (m : Values) (k v : String) (h : NodupKeysV m) :
    NodupKeysV (appendV m k v) := by
  unfold NodupKeysV at h ⊢
  rw [keys_appendV]
  by_cases hc : containsKeyV m k = true
  · simp [hc, h]
  · simp only [Bool.not_eq_true] at hc
    have hk : k ∉ m.map Prod.fst := fun hm => by
      rw [← containsKeyV_iff] at hm
      rw [hm] at hc
      exact absurd hc (by simp)
    simp [hc, List.nodup_append, h, hk]

theorem nodupKeys_setV (m : Values) (k : String) (vs : List String)
    (h : NodupKeysV m) : NodupKeysV (setV m k vs) := by
  unfold NodupKeysV at h ⊢
  rw [keys_setV]
  by_cases hc : containsKeyV m k = true
  · simp [hc, h]
  · simp only [Bool.not_eq_true] at hc
    have hk : k ∉ m.map Prod.fst := fun hm => by
      rw [← containsKeyV_iff] at hm
      rw [hm] at hc
      exact absurd hc (by simp)
    simp [hc, List.nodup_append, h, hk]

theorem lookupV_mergeV :
    ∀ (new orig : Values) (k : String), NodupKeysV new →
    lookupV (mergeV orig new) k =
      if containsKeyV new k then lookupV new k else lookupV orig k := by
  intro new
  induction new with
  | nil => intro orig k _; simp [mergeV, containsKeyV, lookupV]
  | cons p rest ih =>
    intro orig k hnew
    simp only [NodupKeysV, List.map_cons, List.nodup_cons] at hnew
    obtain ⟨hp1, hnd⟩ := hnew
    have step : mergeV orig (p :: rest) = mergeV (setV orig p.1 p.2) rest := rfl
    rw [step, ih _ k hnd]
    by_cases hc : containsKeyV rest k = true
    · have hkr : k ∈ rest.map Prod.fst := (containsKeyV_iff _ _).mp hc
      have hpk : ¬ p.1 = k := fun e => hp1 (e ▸ hkr)
      rw [if_pos hc]
      have hck : containsKeyV (p :: rest) k = true := by
        show (p.1 == k || containsKeyV rest k) = true
        rw [hc, Bool.or_true]
      rw [hck, if_pos rfl]
      show lookupV rest k = if p.1 = k then p.2 else lookupV rest k
      rw [if_neg hpk]
    · simp only [Bool.not_eq_true] at hc
      rw [hc, if_neg (by simp), lookupV_setV]
      by_cases hk : p.1 = k
      · rw [if_pos hk.symm]
        have hck : containsKeyV (p :: rest) k = true := by
          show (p.1 == k || containsKeyV rest k) = true
          simp [hk]
        rw [hck, if_pos rfl]
        show p.2 = if p.1 = k then p.2 else lookupV rest k
        rw [if_pos hk]
      · have hk2 : ¬ k = p.1 := fun e => hk e.symm
        rw [if_neg hk2]
        have hck : containsKeyV (p :: rest) k = false := by
          show (p.1 == k || containsKeyV rest k) = false
          rw [hc, Bool.or_false]
          exact beq_eq_false_iff_ne.mpr hk
        rw [hck, if_neg (by simp)]

theorem nodupKeys_mergeV :
    ∀ (new orig : Values), NodupKeysV orig → NodupKeysV (mergeV orig new) := by
  intro new
  induction new with
  | nil => intro orig h; exact h
  | cons p rest ih =>
    intro orig h
    exact ih (setV orig p.1 p.2) (nodupKeys_setV orig p.1 p.2 h)

theorem valuesByte_setV (m : Values) (k : String) (vs : List String)
    (hm : ValuesByte m) (hk : GoByteStr k) (hvs : ∀ v ∈ vs, GoByteStr v) :
    ValuesByte (setV m k vs) := by
  induction m with
  | nil =>
    intro p hp
    simp [setV] at hp
    subst hp
    exact ⟨hk, hvs⟩
  | cons q rest ih =>
    have hq := hm q (List.mem_cons_self q rest)
    have hrest : ValuesByte rest := fun p hp => hm p (List.mem_cons_of_mem q hp)
    intro p hp
    by_cases hqk : q.1 = k
    · simp only [setV, if_pos hqk] at hp
      rcases List.mem_cons.mp hp with h | h
      · subst h; exact ⟨hk, hvs⟩
      · exact hrest p h
    · simp only [setV, if_neg hqk] at hp
      rcases List.mem_cons.mp hp with h | h
      · subst h; exact hq
      · exact ih hrest p h

theorem valuesByte_mergeV :
    ∀ (new orig : Values), ValuesByte orig → ValuesByte new →
    ValuesByte (mergeV orig new) := by
  intro new
  induction new with
  | nil => intro orig h _; exact h
  | cons p rest ih =>
    intro orig h hnew
    have hp := hnew p (List.mem_cons_self p rest)
    have hrest : ValuesByte rest := fun q hq => hnew q (List.mem_cons_of_mem p hq)
    exact ih (setV orig p.1 p.2) (valuesByte_setV orig p.1 p.2 h hp.1 hp.2) hrest

theorem valuesByte_appendV (m : Values) (k v : String)
    (hm : ValuesByte m) (hk : GoByteStr k) (hv : GoByteStr v) :
    ValuesByte (appendV m k v) := by
  induction m with
  | nil =>
    intro p hp
    simp [appendV] at hp
    subst hp
    refine ⟨hk, ?_⟩
    intro w hw
    simp at hw
    subst hw
    exact hv
  | cons q rest ih =>
    have hq := hm q (List.mem_cons_self q rest)
    have hrest : ValuesByte rest := fun p hp => hm p (List.mem_cons_of_mem q hp)
    intro p hp
    by_cases hqk : q.1 = k
    · simp only [appendV, if_pos hqk] at hp
      rcases List.mem_cons.mp hp with h | h
      · subst h
        refine ⟨hq.1, ?_⟩
        intro w hw
        rcases List.mem_append.mp hw with h2 | h2
        · exact hq.2 w h2
        · simp at h2
          subst h2
          exact hv
      · exact hrest p h
    · simp only [appendV, if_neg hqk] at hp
      rcases List.mem_cons.mp hp with h | h
      · subst h; exact hq
      · exact ih hrest p h

theorem lookupV_perm :
    ∀ {m m2 : Values}, m.Perm m2 → NodupKeysV m → ∀ k,
    lookupV m k = lookupV m2 k := by
  intro m m2 h
  induction h with
  | nil => intro _ _; rfl
  | cons p h2 ih =>
    intro hnd k
    simp only [NodupKeysV, List.map_cons, List.nodup_cons] at hnd
    show (if p.1 = k then p.2 else lookupV _ k) =
      (if p.1 = k then p.2 else lookupV _ k)
    rw [ih hnd.2 k]
  | swap a b l =>
    intro hnd k
    simp only [NodupKeysV, List.map_cons, List.nodup_cons, List.mem_cons] at hnd
    have hba : ¬ b.1 = a.1 := fun e => hnd.1 (Or.inl e)
    by_cases hak : a.1 = k
    · have hbk : ¬ b.1 = k := fun e => hba (e.trans hak.symm)
      simp [lookupV, hak, hbk]
    · simp [lookupV, hak]
  | trans h1 h2 ih1 ih2 =>
    intro hnd k
    have hnd2 : NodupKeysV _ := (h1.map Prod.fst).nodup hnd
    rw [ih1 hnd k, ih2 hnd2 k]

theorem valsOf_append (a b : List (String × String)) (k : String) :
    valsOf (a ++ b) k = valsOf a k ++ valsOf b k := by
  simp [valsOf, List.filterMap_append]

theorem valsOf_mapped (key : String) (vs : List String) (k : String) :
    valsOf (vs.map (fun v => (key, v))) k = if key = k then vs else [] := by
  induction vs with
  | nil => simp [valsOf]
  | cons v rest ih =>
    simp only [List.map_cons, valsOf, List.filterMap_cons] at ih ⊢
    by_cases h : key = k
    · simp only [if_pos h] at ih ⊢
      rw [ih]
    · simp only [if_neg h] at ih ⊢
      rw [ih]

theorem valsOf_flattenV_not_mem (m : Values) (k : String)
    (h : k ∉ m.map Prod.fst) : valsOf (flattenV m) k = [] := by
  induction m with
  | nil => rfl
  | cons p rest ih =>
    simp only [List.map_cons, List.mem_cons] at h
    push_neg at h
    show valsOf (p.2.map (fun v => (p.1, v)) ++ flattenV rest) k = []
    rw [valsOf_append, valsOf_mapped, ih h.2]
    rw [if_neg (fun e => h.1 e.symm)]
    rfl

theorem valsOf_flattenV (m : Values) (hnd : NodupKeysV m) (k : String) :
    valsOf (flattenV m) k = lookupV m k := by
  induction m with
  | nil => rfl
  | cons p rest ih =>
    simp only [NodupKeysV, List.map_cons, List.nodup_cons] at hnd
    obtain ⟨hp, hnd2⟩ := hnd
    show valsOf (p.2.map (fun v => (p.1, v)) ++ flattenV rest) k = _
    rw [valsOf_append, valsOf_mapped]
    by_cases h : p.1 = k
    · rw [if_pos h]
      have hk : k ∉ rest.map Prod.fst := h ▸ hp
      rw [valsOf_flattenV_not_mem rest k hk]
      simp [lookupV, h]
    · rw [if_neg h, ih hnd2]
      simp [lookupV, h]

theorem lookupV_foldl_appendV (ps : List (String × String)) :
    ∀ (acc : Values) (k : String),
    lookupV (ps.foldl (fun m p => appendV m p.1 p.2) acc) k =
      lookupV acc k ++ valsOf ps k := by
  induction ps with
  | nil => intro acc k; simp [valsOf]
  | cons p rest ih =>
    intro acc k
    simp only [List.foldl_cons]
    rw [ih, lookupV_appendV]
    simp only [valsOf, List.filterMap_cons]
    by_cases h : k = p.1
    · subst h
      simp [List.append_assoc]
    · have h2 : ¬ p.1 = k := fun e => h e.symm
      simp only [if_neg h, if_neg h2]

/- ---------------------------------------------------------------- -/
/- Parsing an encoded query recovers the map                         -/
/- ---------------------------------------------------------------- -/

theorem hexVal_lt (c : Char) (d : Nat) (h : hexVal c = some d) : d < 16 := by
  unfold hexVal at h
  split_ifs at h with h1 h2 h3 <;> simp_all <;> omega

theorem unescape_bytes (l : List Char) :
    ∀ (l2 : List Char), unescapeChars l = some l2 →
    (∀ c ∈ l, c.toNat < 256) → ∀ c ∈ l2, c.toNat < 256 := by
  induction l using unescapeChars.induct with
  | case1 =>
    intro l2 hu h c hc
    simp only [unescapeChars, Option.some.injEq] at hu
    subst hu
    simp at hc
  | case2 c0 h37 h1 h2 rest2 d1 d2 tail htail hd2 hd1 ih =>
    intro l2 hu h c hc
    rw [unescapeChars.eq_def] at hu
    simp only [h37, if_true, hd1, hd2, htail, Option.some.injEq] at hu
    subst hu
    rcases List.mem_cons.mp hc with h2c | h2c
    · subst h2c
      have e1 := hexVal_lt h1 d1 hd1
      have e2 := hexVal_lt h2 d2 hd2
      rw [charToNat_ofNat _ (by omega)]
      omega
    · exact ih tail htail
        (fun d hd => h d (List.mem_cons_of_mem _ (List.mem_cons_of_mem _
          (List.mem_cons_of_mem _ hd)))) c h2c
  | case3 c0 h37 h1 h2 rest2 hfail ih =>
    intro l2 hu h c hc
    rw [unescapeChars.eq_def] at hu
    simp only [h37, if_true] at hu
    rcases hh1 : hexVal h1 with _ | d1
    · simp [hh1] at hu
    rcases hh2 : hexVal h2 with _ | d2
    · simp [hh1, hh2] at hu
    rcases hh3 : unescapeChars rest2 with _ | tail
    · simp [hh1, hh2, hh3] at hu
    exact (hfail d1 d2 tail hh1 hh2 hh3).elim
  | case4 c0 rest h37 hshort =>
    intro l2 hu h c hc
    match rest, hu with
    | [], hu =>
      rw [unescapeChars.eq_def] at hu
      simp [h37] at hu
    | [x], hu =>
      rw [unescapeChars.eq_def] at hu
      simp [h37] at hu
    | x :: y :: ys, hu => exact (hshort x y ys rfl).elim
  | case5 c0 rest h37 h43 tail htail ih =>
    intro l2 hu h c hc
    rw [unescapeChars.eq_def] at hu
    simp [h37, h43, htail] at hu
    subst hu
    rcases List.mem_cons.mp hc with h2c | h2c
    · subst h2c; decide
    · exact ih tail htail (fun d hd => h d (List.mem_cons_of_mem _ hd)) c h2c
  | case6 c0 rest h37 h43 hnone ih =>
    intro l2 hu h c hc
    rw [unescapeChars.eq_def] at hu
    simp [h37, h43, hnone] at hu
  | case7 c0 rest h37 h43 tail htail ih =>
    intro l2 hu h c hc
    rw [unescapeChars.eq_def] at hu
    simp [h37, h43, htail] at hu
    subst hu
    rcases List.mem_cons.mp hc with h2c | h2c
    · subst h2c; exact h _ (List.mem_cons_self _ _)
    · exact ih tail htail (fun d hd => h d (List.mem_cons_of_mem _ hd)) c h2c
  | case8 c0 rest h37 h43 hnone ih =>
    intro l2 hu h c hc
    rw [unescapeChars.eq_def] at hu
    simp [h37, h43, hnone] at hu

theorem nodupKeys_parseSeg (m : Values) (seg : List Char) (h : NodupKeysV m) :
    NodupKeysV (parseSeg m seg) := by
  unfold parseSeg
  split
  · exact h
  · split
    · exact h
    · split
      · exact nodupKeys_appendV _ _ _ h
      · exact h

theorem nodupKeys_foldl_parseSeg (segs : List (List Char)) :
    ∀ acc, NodupKeysV acc → NodupKeysV (segs.foldl parseSeg acc) := by
  induction segs with
  | nil => intro acc h; exact h
  | cons s rest ih =>
    intro acc h
    exact ih _ (nodupKeys_parseSeg acc s h)

theorem nodupKeys_parseQuery (q : String) : NodupKeysV (parseQuery q) :=
  nodupKeys_foldl_parseSeg _ [] (by simp [NodupKeysV])

theorem valuesByte_parseSeg (m : Values) (seg : List Char)
    (h : ValuesByte m) (hs : ∀ c ∈ seg, c.toNat < 256) :
    ValuesByte (parseSeg m seg) := by
  unfold parseSeg
  split
  · exact h
  · split
    · exact h
    · split
      · next k v hk hv =>
        refine valuesByte_appendV _ _ _ h ?_ ?_
        · exact unescape_bytes _ k hk
            (fun c hc => hs c (mem_cutAtChar_fst '=' seg c hc))
        · exact unescape_bytes _ v hv
            (fun c hc => hs c (mem_cutAtChar_snd '=' seg c hc))
      · exact h

theorem valuesByte_foldl_parseSeg (segs : List (List Char)) :
    ∀ acc, ValuesByte acc → (∀ s ∈ segs, ∀ c ∈ s, c.toNat < 256) →
    ValuesByte (segs.foldl parseSeg acc) := by
  induction segs with
  | nil => intro acc h _; exact h
  | cons s rest ih =>
    intro acc h hb
    exact ih _ (valuesByte_parseSeg acc s h (hb s (List.mem_cons_self s rest)))
      (fun t ht c hc => hb t (List.mem_cons_of_mem s ht) c hc)

theorem valuesByte_parseQuery (q : String) (h : ∀ c ∈ q.data, c.toNat < 256) :
    ValuesByte (parseQuery q) :=
  valuesByte_foldl_parseSeg _ []
    (by intro p hp; exact absurd hp (List.not_mem_nil p))
    (fun s hs c hc => h c (mem_splitOnChar '&' q.data s hs c hc))

theorem mem_escSeg (p : String × String) (x : Char) (hx : x ∈ escSeg p) :
    x = '=' ∨ encSafe x = true := by
  unfold escSeg at hx
  rcases List.mem_append.mp hx with h | h
  · exact Or.inr (escChars_encSafe _ x h)
  · rcases List.mem_cons.mp h with h | h
    · exact Or.inl h
    · exact Or.inr (escChars_encSafe _ x h)

theorem escSeg_ne_amp (p : String × String) : ∀ x ∈ escSeg p, x ≠ '&' := by
  intro x hx he
  subst he
  rcases mem_escSeg p _ hx with h | h
  · exact absurd h (by decide)
  · exact (encSafe_facts _ h).2.2.2.2.1 (by decide)

theorem escSeg_not_semi (p : String × String) : ∀ x ∈ escSeg p, x ≠ ';' := by
  intro x hx he
  subst he
  rcases mem_escSeg p _ hx with h | h
  · exact absurd h (by decide)
  · exact (encSafe_facts _ h).2.2.2.2.2.1 (by decide)

theorem escSeg_ne_nil (p : String × String) : escSeg p ≠ [] := by
  intro h
  unfold escSeg at h
  rw [List.append_eq_nil] at h
  exact absurd h.2 (by simp)

theorem escChars_ne_eq (l : List Char) : ∀ x ∈ escChars l, x ≠ '=' := by
  intro x hx he
  subst he
  exact (encSafe_facts _ (escChars_encSafe l _ hx)).2.2.2.2.2.2.1 (by decide)

theorem parseSeg_escSeg (m : Values) (k v : String)
    (hk : GoByteStr k) (hv : GoByteStr v) :
    parseSeg m (escSeg (k, v)) = appendV m k v := by
  have hne : ¬ (escSeg (k, v)).isEmpty = true := by
    rw [List.isEmpty_iff]
    exact escSeg_ne_nil (k, v)
  have hcont : ¬ ((escSeg (k, v)).contains ';') = true := by
    intro hc
    have hmem : ';' ∈ escSeg (k, v) := by
      simpa [List.contains] using hc
    exact escSeg_not_semi (k, v) ';' hmem rfl
  have hcut : cutAtChar '=' (escSeg (k, v)) =
      (escChars k.data, escChars v.data) := by
    unfold escSeg
    exact cutAtChar_append '=' _ _ (escChars_ne_eq k.data)
  unfold parseSeg
  rw [if_neg hne, if_neg hcont, hcut]
  rw [unescape_escChars k.data hk, unescape_escChars v.data hv]

theorem foldl_parseSeg_escSegs (ps : List (String × String)) :
    ∀ acc, (∀ p ∈ ps, GoByteStr p.1 ∧ GoByteStr p.2) →
    ((ps.map escSeg).foldl parseSeg acc) =
      ps.foldl (fun m p => appendV m p.1 p.2) acc := by
  induction ps with
  | nil => intro acc _; rfl
  | cons p rest ih =>
    intro acc hb
    have hp := hb p (List.mem_cons_self p rest)
    simp only [List.map_cons, List.foldl_cons]
    rw [show escSeg p = escSeg (p.1, p.2) from rfl,
        parseSeg_escSeg acc p.1 p.2 hp.1 hp.2]
    exact ih _ (fun q hq => hb q (List.mem_cons_of_mem p hq))

theorem mem_flattenV (m : Values) (p : String × String) (hp : p ∈ flattenV m) :
    ∃ vs, (p.1, vs) ∈ m ∧ p.2 ∈ vs := by
  induction m with
  | nil => simp [flattenV] at hp
  | cons q rest ih =>
    unfold flattenV at hp
    rcases List.mem_append.mp hp with h | h
    · obtain ⟨v, hv, he⟩ := List.mem_map.mp h
      refine ⟨q.2, ?_, ?_⟩
      · rw [← he]
        exact List.mem_cons_self _ _
      · rw [← he]
        exact hv
    · obtain ⟨vs, hvs, hv⟩ := ih h
      exact ⟨vs, List.mem_cons_of_mem q hvs, hv⟩

theorem valuesByte_nil : ValuesByte [] := by
  intro p hp
  exact absurd hp (List.not_mem_nil p)

theorem lookupV_parse_encodeV (m : Values) (hb : ValuesByte m)
    (hnd : NodupKeysV m) (k : String) :
    lookupV (parseQuery (encodeV m)) k = lookupV m k := by
  have hperm : (List.insertionSort (fun a b => keyLeb a b = true) m).Perm m :=
    List.perm_insertionSort _ m
  have hndsm : NodupKeysV (List.insertionSort (fun a b => keyLeb a b = true) m) := by
    unfold NodupKeysV at hnd ⊢
    exact (hperm.symm.map Prod.fst).nodup hnd
  have hbsm : ValuesByte (List.insertionSort (fun a b => keyLeb a b = true) m) :=
    fun p hp => hb p (hperm.mem_iff.mp hp)
  have hps : ∀ p ∈ flattenV (List.insertionSort (fun a b => keyLeb a b = true) m),
      GoByteStr p.1 ∧ GoByteStr p.2 := by
    intro p hp
    obtain ⟨vs, hvs, hv⟩ := mem_flattenV _ p hp
    have := hbsm (p.1, vs) hvs
    exact ⟨this.1, this.2 p.2 hv⟩
  have hlk : lookupV (List.insertionSort (fun a b => keyLeb a b = true) m) k =
      lookupV m k :=
    lookupV_perm hperm hndsm k
  unfold parseQuery encodeV
  match hfl : flattenV (List.insertionSort (fun a b => keyLeb a b = true) m) with
  | [] =>
    show lookupV ((splitOnChar '&' (intercalateChar '&' [])).foldl
      parseSeg []) k = lookupV m k
    have : lookupV (List.insertionSort (fun a b => keyLeb a b = true) m) k =
        valsOf (flattenV (List.insertionSort (fun a b => keyLeb a b = true) m)) k :=
      (valsOf_flattenV _ hndsm k).symm
    rw [hfl] at this
    rw [← hlk, this]
    rfl
  | q :: qs =>
    show lookupV ((splitOnChar '&'
      (intercalateChar '&' ((q :: qs).map escSeg))).foldl parseSeg []) k =
      lookupV m k
    rw [splitOnChar_intercalate '&' ((q :: qs).map escSeg) (by simp)
      (by
        intro s hs x hx
        obtain ⟨p, hp, he⟩ := List.mem_map.mp hs
        exact escSeg_ne_amp p x (he ▸ hx))]
    rw [foldl_parseSeg_escSegs (q :: qs) [] (hfl ▸ hps)]
    rw [lookupV_foldl_appendV (q :: qs) [] k]
    have : valsOf (flattenV (List.insertionSort (fun a b => keyLeb a b = true) m)) k =
        lookupV (List.insertionSort (fun a b => keyLeb a b = true) m) k :=
      valsOf_flattenV _ hndsm k
    rw [hfl] at this
    rw [this, hlk]
    rfl

/- ---------------------------------------------------------------- -/
/- URL parsing and printing lemmas                                   -/
/- ---------------------------------------------------------------- -/

theorem mem_intercalateChar (c : Char) (ss : List (List Char)) :
    ∀ x ∈ intercalateChar c ss, x = c ∨ ∃ s ∈ ss, x ∈ s := by
  induction ss with
  | nil => intro x hx; simp [intercalateChar] at hx
  | cons s rest ih =>
    intro x hx
    cases rest with
    | nil =>
      right
      exact ⟨s, List.mem_cons_self s [], hx⟩
    | cons s2 rest2 =>
      have hx2 : x ∈ s ++ c :: intercalateChar c (s2 :: rest2) := hx
      rcases List.mem_append.mp hx2 with h | h
      · right
        exact ⟨s, List.mem_cons_self s _, h⟩
      · rcases List.mem_cons.mp h with h | h
        · exact Or.inl h
        · rcases ih x h with h2 | ⟨t, ht, hxt⟩
          · exact Or.inl h2
          · right
            exact ⟨t, List.mem_cons_of_mem s ht, hxt⟩

theorem encodeV_chars (m : Values) (x : Char) (hx : x ∈ (encodeV m).data) :
    x = '&' ∨ x = '=' ∨ encSafe x = true := by
  unfold encodeV at hx
  rcases mem_intercalateChar '&' _ x hx with h | ⟨s, hs, hxs⟩
  · exact Or.inl h
  · obtain ⟨p, hp, he⟩ := List.mem_map.mp hs
    rcases mem_escSeg p x (he ▸ hxs) with h | h
    · exact Or.inr (Or.inl h)
    · exact Or.inr (Or.inr h)

theorem encodeV_char_facts (m : Values) (x : Char) (hx : x ∈ (encodeV m).data) :
    isCtlChar x = false ∧ x ≠ '#' ∧ x ≠ '?' ∧ x.toNat < 256 := by
  rcases encodeV_chars m x hx with h | h | h
  · subst h
    refine ⟨by decide, by decide, by decide, by decide⟩
  · subst h
    refine ⟨by decide, by decide, by decide, by decide⟩
  · obtain ⟨hlt, hge, h127, h35, _, _, _, h63⟩ := encSafe_facts x h
    refine ⟨?_, ?_, ?_, hlt⟩
    · simp only [isCtlChar, Bool.or_eq_false_iff]
      constructor
      · simp only [decide_eq_false_iff_not]
        omega
      · simp only [beq_eq_false_iff_ne]
        omega
    · intro he; subst he; exact h35 (by decide)
    · intro he; subst he; exact h63 (by decide)

theorem urlParse_ok_facts (s : String) (u : URLm) (h : urlParse s = .ok u) :
    (∀ x ∈ u.base.data, x ∈ s.data ∧ x ≠ '?' ∧ x ≠ '#') ∧
    (∀ x ∈ u.rawQuery.data, x ∈ s.data ∧ x ≠ '#') ∧
    (∀ x ∈ u.fragment.data, x ∈ s.data) ∧
    (∀ x ∈ s.data, isCtlChar x = false) := by
  unfold urlParse at h
  by_cases hany : s.data.any isCtlChar = true
  · rw [if_pos hany] at h
    exact absurd h (by simp)
  · rw [if_neg hany] at h
    simp only [Except.ok.injEq] at h
    subst h
    refine ⟨?_, ?_, ?_, ?_⟩
    · intro x hx
      have hx1 : x ∈ (cutAtChar '#' s.data).1 :=
        mem_cutAtChar_fst '?' _ x hx
      refine ⟨mem_cutAtChar_fst '#' _ x hx1, ?_, ?_⟩
      · exact cutAtChar_fst_ne '?' _ x hx
      · exact cutAtChar_fst_ne '#' _ x hx1
    · intro x hx
      have hx1 : x ∈ (cutAtChar '#' s.data).1 :=
        mem_cutAtChar_snd '?' _ x hx
      exact ⟨mem_cutAtChar_fst '#' _ x hx1, cutAtChar_fst_ne '#' _ x hx1⟩
    · intro x hx
      exact mem_cutAtChar_snd '#' _ x hx
    · intro x hx
      rcases hb : isCtlChar x with _ | _
      · rfl
      · exact absurd (List.any_eq_true.mpr ⟨x, hx, hb⟩) hany

theorem data_q_prefix (q : String) : ("?" ++ q).data = '?' :: q.data := by
  rw [String.data_append]
  rfl

theorem data_f_prefix (f : String) : ("#" ++ f).data = '#' :: f.data := by
  rw [String.data_append]
  rfl

theorem urlParse_urlString (u : URLm)
    (hbase : ∀ x ∈ u.base.data, isCtlChar x = false ∧ x ≠ '?' ∧ x ≠ '#')
    (hq : ∀ x ∈ u.rawQuery.data, isCtlChar x = false ∧ x ≠ '#')
    (hf : ∀ x ∈ u.fragment.data, isCtlChar x = false) :
    urlParse (urlString u) = .ok u := by
  by_cases hq0 : u.rawQuery = ""
  · by_cases hf0 : u.fragment = ""
    · have hd : (urlString u).data = u.base.data := by
        simp [urlString, hq0, hf0, String.data_append]
      unfold urlParse
      rw [hd]
      rw [if_neg (by
        intro hany
        obtain ⟨x, hx, hb⟩ := List.any_eq_true.mp hany
        rw [(hbase x hx).1] at hb
        exact absurd hb (by simp))]
      rw [cutAtChar_not_mem '#' _ (fun x hx => (hbase x hx).2.2)]
      dsimp only
      rw [cutAtChar_not_mem '?' _ (fun x hx => (hbase x hx).2.1)]
      rw [Except.ok.injEq]
      cases u with
      | mk b q f =>
        dsimp only at hq0 hf0
        subst hq0
        subst hf0
        rfl
    · have hd : (urlString u).data =
          u.base.data ++ '#' :: u.fragment.data := by
        simp [urlString, hq0, hf0, String.data_append, data_f_prefix]
      unfold urlParse
      rw [hd]
      rw [if_neg (by
        intro hany
        obtain ⟨x, hx, hb⟩ := List.any_eq_true.mp hany
        rcases List.mem_append.mp hx with h | h
        · rw [(hbase x h).1] at hb
          exact absurd hb (by simp)
        · rcases List.mem_cons.mp h with h | h
          · subst h
            exact absurd hb (by decide)
          · rw [hf x h] at hb
            exact absurd hb (by simp))]
      rw [cutAtChar_append '#' _ _ (fun x hx => (hbase x hx).2.2)]
      dsimp only
      rw [cutAtChar_not_mem '?' _ (fun x hx => (hbase x hx).2.1)]
      rw [Except.ok.injEq]
      cases u with
      | mk b q f =>
        dsimp only at hq0
        subst hq0
        rfl
  · by_cases hf0 : u.fragment = ""
    · have hd : (urlString u).data =
          (u.base.data ++ '?' :: u.rawQuery.data) := by
        simp [urlString, hq0, hf0, String.data_append, data_q_prefix]
      unfold urlParse
      rw [hd]
      rw [if_neg (by
        intro hany
        obtain ⟨x, hx, hb⟩ := List.any_eq_true.mp hany
        rcases List.mem_append.mp hx with h | h
        · rw [(hbase x h).1] at hb
          exact absurd hb (by simp)
        · rcases List.mem_cons.mp h with h | h
          · subst h
            exact absurd hb (by decide)
          · rw [(hq x h).1] at hb
            exact absurd hb (by simp))]
      rw [cutAtChar_not_mem '#' _ (by
        intro x hx
        rcases List.mem_append.mp hx with h | h
        · exact (hbase x h).2.2
        · rcases List.mem_cons.mp h with h | h
          · subst h; decide
          · exact (hq x h).2)]
      dsimp only
      rw [cutAtChar_append '?' _ _ (fun x hx => (hbase x hx).2.1)]
      rw [Except.ok.injEq]
      cases u with
      | mk b q f =>
        dsimp only at hf0
        subst hf0
        rfl
    · have hd : (urlString u).data =
          (u.base.data ++ '?' :: u.rawQuery.data) ++ '#' :: u.fragment.data := by
        simp [urlString, hq0, hf0, String.data_append, data_q_prefix,
          data_f_prefix]
      unfold urlParse
      rw [hd]
      rw [if_neg (by
        intro hany
        obtain ⟨x, hx, hb⟩ := List.any_eq_true.mp hany
        rcases List.mem_append.mp hx with h | h
        · rcases List.mem_append.mp h with h2 | h2
          · rw [(hbase x h2).1] at hb
            exact absurd hb (by simp)
          · rcases List.mem_cons.mp h2 with h2 | h2
            · subst h2
              exact absurd hb (by decide)
            · rw [(hq x h2).1] at hb
              exact absurd hb (by simp)
        · rcases List.mem_cons.mp h with h | h
          · subst h
            exact absurd hb (by decide)
          · rw [hf x h] at hb
            exact absurd hb (by simp))]
      rw [cutAtChar_append '#' _ _ (by
        intro x hx
        rcases List.mem_append.mp hx with h | h
        · exact (hbase x h).2.2
        · rcases List.mem_cons.mp h with h | h
          · subst h; decide
          · exact (hq x h).2)]
      dsimp only
      rw [cutAtChar_append '?' _ _ (fun x hx => (hbase x hx).2.1)]

theorem data_empty : ("" : String).data = [] := rfl

theorem mem_urlString (u : URLm) (x : Char) (hx : x ∈ (urlString u).data) :
    x ∈ u.base.data ∨ x = '?' ∨ x ∈ u.rawQuery.data ∨ x = '#' ∨
      x ∈ u.fragment.data := by
  unfold urlString at hx
  by_cases hq0 : u.rawQuery = ""
  · by_cases hf0 : u.fragment = ""
    · rw [if_pos hq0, if_pos hf0, String.data_append, String.data_append,
        data_empty, List.append_nil, List.append_nil] at hx
      exact Or.inl hx
    · rw [if_pos hq0, if_neg hf0, String.data_append, String.data_append,
        data_empty, List.append_nil, data_f_prefix] at hx
      rcases List.mem_append.mp hx with h | h
      · exact Or.inl h
      · rcases List.mem_cons.mp h with h | h
        · exact Or.inr (Or.inr (Or.inr (Or.inl h)))
        · exact Or.inr (Or.inr (Or.inr (Or.inr h)))
  · by_cases hf0 : u.fragment = ""
    · rw [if_neg hq0, if_pos hf0, String.data_append, String.data_append,
        data_empty, List.append_nil, data_q_prefix] at hx
      rcases List.mem_append.mp hx with h | h
      · exact Or.inl h
      · rcases List.mem_cons.mp h with h | h
        · exact Or.inr (Or.inl h)
        · exact Or.inr (Or.inr (Or.inl h))
    · rw [if_neg hq0, if_neg hf0, String.data_append, String.data_append,
        data_q_prefix, data_f_prefix] at hx
      rcases List.mem_append.mp hx with h | h
      · rcases List.mem_append.mp h with h2 | h2
        · exact Or.inl h2
        · rcases List.mem_cons.mp h2 with h2 | h2
          · exact Or.inr (Or.inl h2)
          · exact Or.inr (Or.inr (Or.inl h2))
      · rcases List.mem_cons.mp h with h | h
        · exact Or.inr (Or.inr (Or.inr (Or.inl h)))
        · exact Or.inr (Or.inr (Or.inr (Or.inr h)))

theorem addOptions_eq (s : String) (new : Values) (u : URLm)
    (hp : urlParse s = .ok u) :
    addOptions s (some new) =
      .ok (urlString (withQuery u
        (encodeV (mergeV (parseQuery u.rawQuery) new)))) := by
  unfold addOptions
  rw [hp]
  rfl

theorem urlParse_addOptions_result (s : String) (new : Values) (u : URLm)
    (hp : urlParse s = .ok u) :
    urlParse (urlString (withQuery u
        (encodeV (mergeV (parseQuery u.rawQuery) new)))) =
      .ok (withQuery u (encodeV (mergeV (parseQuery u.rawQuery) new))) := by
  obtain ⟨hbase, hq, hf, hctl⟩ := urlParse_ok_facts s u hp
  apply urlParse_urlString
  · intro x hx
    exact ⟨hctl x (hbase x hx).1, (hbase x hx).2.1, (hbase x hx).2.2⟩
  · intro x hx
    have h := encodeV_char_facts _ x hx
    exact ⟨h.1, h.2.1⟩
  · intro x hx
    exact hctl x (hf x hx)

theorem queryContent_addOptions (s : String) (new : Values) (u : URLm)
    (hp : urlParse s = .ok u) (hs : GoByteStr s) (hb : ValuesByte new)
    (hnd : NodupKeysV new) (k : String) :
    queryContent (urlString (withQuery u
        (encodeV (mergeV (parseQuery u.rawQuery) new)))) k =
      lookupV (mergeV (parseQuery u.rawQuery) new) k := by
  obtain ⟨hbase, hqf, hf, hctl⟩ := urlParse_ok_facts s u hp
  have hqbytes : ∀ c ∈ u.rawQuery.data, c.toNat < 256 :=
    fun c hc => hs c (hqf c hc).1
  have hmb : ValuesByte (mergeV (parseQuery u.rawQuery) new) :=
    valuesByte_mergeV new _ (valuesByte_parseQuery _ hqbytes) hb
  have hmnd : NodupKeysV (mergeV (parseQuery u.rawQuery) new) :=
    nodupKeys_mergeV new _ (nodupKeys_parseQuery _)
  unfold queryContent
  rw [urlParse_addOptions_result s new u hp]
  exact lookupV_parse_encodeV _ hmb hmnd k

theorem goByteStr_addOptions_result (s : String) (new : Values) (u : URLm)
    (hp : urlParse s = .ok u) (hs : GoByteStr s) :
    GoByteStr (urlString (withQuery u
      (encodeV (mergeV (parseQuery u.rawQuery) new)))) := by
  obtain ⟨hbase, hq, hf, hctl⟩ := urlParse_ok_facts s u hp
  intro x hx
  rcases mem_urlString _ x hx with h | h | h | h | h
  · exact hs x (hbase x h).1
  · subst h; decide
  · exact (encodeV_char_facts _ x h).2.2.2
  · subst h; decide
  · exact hs x (hf x h)

/- ---------------------------------------------------------------- -/
/- Claim theorems for the Query Encoder                              -/
/- ---------------------------------------------------------------- -/

/-- C6: for every URL string, when the options value supplied to
addOptions is absent (a nil options value), the input URL string is
returned unchanged with no error. -/
theorem addOptions_nil_passthrough (s : String) :
    addOptions s none = .ok s := rfl

/-- C7: for every parseable URL string and non-nil options value,
addOptions preserves the pre-existing query parameters whose keys do not
collide with the options' keys, and on a key collision the options'
values replace the pre-existing values for that key.  Strings are Go byte
strings and the options map, coming from a Go map, has distinct keys. -/
theorem addOptions_preserves_and_overrides (s t : String) (new : Values)
    (hs : GoByteStr s) (hb : ValuesByte new) (hnd : NodupKeysV new)
    (h1 : addOptions s (some new) = .ok t) (k : String) :
    (containsKeyV new k = false → queryContent t k = queryContent s k) ∧
    (containsKeyV new k = true → queryContent t k = lookupV new k) := by
  rcases hp : urlParse s with e | u
  · exfalso
    unfold addOptions at h1
    rw [hp] at h1
    exact absurd h1 (by simp)
  · have heq := addOptions_eq s new u hp
    rw [h1] at heq
    have ht : t = urlString (withQuery u
        (encodeV (mergeV (parseQuery u.rawQuery) new))) := by
      simpa using heq
    subst ht
    rw [queryContent_addOptions s new u hp hs hb hnd k]
    rw [lookupV_mergeV new (parseQuery u.rawQuery) k hnd]
    have hqs : queryContent s k = lookupV (parseQuery u.rawQuery) k := by
      unfold queryContent
      rw [hp]
    constructor
    · intro hcf
      rw [hcf, if_neg (by simp), hqs]
    · intro hct
      rw [hct, if_pos rfl]

/-- Witness for C7 at a concrete URL and options value: the
non-colliding key keeps its value and the colliding key takes the
options' value. -/
theorem addOptions_preserves_and_overrides_witness :
    queryContent "https://x/api?a=1&b=9&c=3" "a" = ["1"] ∧
    queryContent "https://x/api?a=1&b=9&c=3" "b" = ["9"] := by
  have h := fun k => addOptions_preserves_and_overrides
    "https://x/api?a=1&b=2" "https://x/api?a=1&b=9&c=3"
    [("b", ["9"]), ("c", ["3"])]
    (by decide) (by decide) (by decide) (by decide) k
  constructor
  · exact ((h "a").1 (by decide)).trans (by decide)
  · exact ((h "b").2 (by decide)).trans (by decide)

/-- C8: applying addOptions twice with the same options yields a URL whose
final query-string content agrees, key by key, with the result of applying
it once. -/
theorem addOptions_idempotent (s t : String) (new : Values)
    (hs : GoByteStr s) (hb : ValuesByte new) (hnd : NodupKeysV new)
    (h1 : addOptions s (some new) = .ok t) :
    ∃ t2, addOptions t (some new) = .ok t2 ∧
      ∀ k, queryContent t2 k = queryContent t k := by
  rcases hp : urlParse s with e | u
  · exfalso
    unfold addOptions at h1
    rw [hp] at h1
    exact absurd h1 (by simp)
  · have heq := addOptions_eq s new u hp
    rw [h1] at heq
    have ht : t = urlString (withQuery u
        (encodeV (mergeV (parseQuery u.rawQuery) new))) := by
      simpa using heq
    subst ht
    have hpt := urlParse_addOptions_result s new u hp
    have hts := goByteStr_addOptions_result s new u hp hs
    refine ⟨_, addOptions_eq _ new _ hpt, ?_⟩
    intro k
    rw [queryContent_addOptions _ new _ hpt hts hb hnd k]
    rw [queryContent_addOptions s new u hp hs hb hnd k]
    obtain ⟨hbase, hqf, hf, hctl⟩ := urlParse_ok_facts s u hp
    have hqbytes : ∀ c ∈ u.rawQuery.data, c.toNat < 256 :=
      fun c hc => hs c (hqf c hc).1
    have hmb : ValuesByte (mergeV (parseQuery u.rawQuery) new) :=
      valuesByte_mergeV new _ (valuesByte_parseQuery _ hqbytes) hb
    have hmnd : NodupKeysV (mergeV (parseQuery u.rawQuery) new) :=
      nodupKeys_mergeV new _ (nodupKeys_parseQuery _)
    show lookupV (mergeV (parseQuery
      (encodeV (mergeV (parseQuery u.rawQuery) new))) new) k =
      lookupV (mergeV (parseQuery u.rawQuery) new) k
    rw [lookupV_mergeV new _ k hnd]
    by_cases hc : containsKeyV new k = true
    · rw [if_pos hc,
        lookupV_mergeV new (parseQuery u.rawQuery) k hnd, if_pos hc]
    · simp only [Bool.not_eq_true] at hc
      rw [hc, if_neg (by simp)]
      exact lookupV_parse_encodeV _ hmb hmnd k

/-- Witness for C8 at a concrete URL and options value: the second
application returns the same URL string and the same query content. -/
theorem addOptions_idempotent_witness :
    addOptions "https://x/api?a=1&b=9&c=3"
      (some [("b", ["9"]), ("c", ["3"])]) =
        .ok "https://x/api?a=1&b=9&c=3" ∧
    queryContent "https://x/api?a=1&b=9&c=3" "b" = ["9"] := by
  obtain ⟨t2, h2, hq⟩ := addOptions_idempotent "https://x/api?a=1&b=2"
    "https://x/api?a=1&b=9&c=3" [("b", ["9"]), ("c", ["3"])]
    (by decide) (by decide) (by decide) (by decide)
  have ht2 : t2 = "https://x/api?a=1&b=9&c=3" := by
    have h3 : (Except.ok t2 : Except GoErr String) =
        .ok "https://x/api?a=1&b=9&c=3" :=
      h2.symm.trans (by decide)
    simpa using h3
  subst ht2
  exact ⟨h2, (hq "b").trans (by decide)⟩

/- ---------------------------------------------------------------- -/
/- Claim theorems for construction and options                       -/
/- ---------------------------------------------------------------- -/

theorem applyOpts_append (l1 : List ClientOpt) :
    ∀ (c : Client) (l2 : List ClientOpt),
    applyOpts c (l1 ++ l2) =
      match applyOpts c l1 with
      | .ok c2 => applyOpts c2 l2
      | .error e => .error e := by
  induction l1 with
  | nil => intro c l2; rfl
  | cons o rest ih =>
    intro c l2
    show applyOpts c (o :: (rest ++ l2)) = _
    rcases ho : o c with e | c2
    · simp [applyOpts, ho]
    · simp only [applyOpts, ho]
      exact ih c2 l2

/-- C5: the options passed to New are applied in order; if an option
function fails after a prefix of options has been applied, construction
returns that option's failure, whatever options follow it (they are not
applied). -/
theorem new_first_failing_option_aborts (opts1 opts2 : List ClientOpt)
    (bad : ClientOpt) (c : Client) (e : GoErr)
    (h1 : applyOpts NewClient opts1 = .ok c) (h2 : bad c = .error e) :
    New (opts1 ++ bad :: opts2) = .error e := by
  unfold New
  rw [applyOpts_append opts1 NewClient (bad :: opts2), h1]
  simp [applyOpts, h2]

/-- Witness for C5: a failing SetBaseURL between two SetUserAgent options
aborts construction with the URL-parse failure. -/
theorem new_first_failing_option_aborts_witness :
    New ([SetUserAgent "x"] ++ SetBaseURL "\x01" :: [SetUserAgent "y"]) =
      .error (.urlError "net/url: invalid control character in URL") :=
  new_first_failing_option_aborts [SetUserAgent "x"] [SetUserAgent "y"]
    (SetBaseURL "\x01")
    { BaseURL := { base := "https://sandboxapic.cisco.com/api",
                   rawQuery := "", fragment := "" },
      UserAgent := "x+apicem/0.1.0", Authorization := "" }
    (.urlError "net/url: invalid control character in URL")
    (by decide) (by decide)

/-- C9: applying SetUserAgent to a freshly constructed client succeeds and
yields a UserAgent that composes the given string with the library's
default user agent token by concatenation with a separator. -/
theorem setUserAgent_composes (ua : String) :
    ∃ c, New [SetUserAgent ua] = .ok c ∧
      c.UserAgent = ua ++ "+" ++ userAgent ∧
      ∃ s1, c.UserAgent = ua ++ s1 ++ userAgent :=
  ⟨_, rfl, rfl, "+", rfl⟩

/- ---------------------------------------------------------------- -/
/- Claim theorem for the Request Builder                             -/
/- ---------------------------------------------------------------- -/

/-- C4: every request NewRequest builds carries the upper-cased method,
Content-Type and Accept set to the JSON media type, User-Agent set to the
client's configured string, and the X-Auth-Token header exactly when the
client's Authorization token is non-empty. -/
theorem newRequest_method_and_headers (c : Client) (method urlStr : String)
    (body : Option (Except String String)) (req : Request)
    (h : NewRequest c method urlStr body = .ok req) :
    req.method = goToUpper method ∧
    headerGet req.headers "Content-Type" = some mediaType ∧
    headerGet req.headers "Accept" = some mediaType ∧
    headerGet req.headers "User-Agent" = some c.UserAgent ∧
    headerGet req.headers "X-Auth-Token" =
      (if c.Authorization = "" then none else some c.Authorization) := by
  unfold NewRequest httpNewRequest at h
  rcases hp : urlParse urlStr with e | rel <;> rw [hp] at h
  · exact absurd h (by simp)
  rcases body with _ | exc
  case some =>
    rcases exc with m | enc
    case error => exact absurd h (by simp)
    case ok =>
      replace h : (match (if validMethod (goToUpper method) = true then
          (Except.ok ⟨goToUpper method,
            urlString (resolveReference c.BaseURL rel), enc, []⟩ :
              Except GoErr Request) else
          Except.error (GoErr.requestError "net/http: invalid method")) with
        | Except.error e => Except.error e
        | Except.ok req2 => Except.ok { req2 with
            headers := req2.headers ++
              [("Content-Type", mediaType), ("Accept", mediaType),
               ("User-Agent", c.UserAgent)] ++
              (if c.Authorization = "" then []
               else [("X-Auth-Token", c.Authorization)]) }) = .ok req := h
      by_cases hv : validMethod (goToUpper method) = true
      · rw [if_pos hv] at h
        simp only [Except.ok.injEq] at h
        subst h
        refine ⟨rfl, ?_, ?_, ?_, ?_⟩ <;>
          by_cases ha : c.Authorization = "" <;> simp [headerGet, ha]
      · rw [if_neg hv] at h
        exact absurd h (by simp)
  case none =>
    replace h : (match (if validMethod (goToUpper method) = true then
        (Except.ok ⟨goToUpper method,
          urlString (resolveReference c.BaseURL rel), "", []⟩ :
            Except GoErr Request) else
        Except.error (GoErr.requestError "net/http: invalid method")) with
      | Except.error e => Except.error e
      | Except.ok req2 => Except.ok { req2 with
          headers := req2.headers ++
            [("Content-Type", mediaType), ("Accept", mediaType),
             ("User-Agent", c.UserAgent)] ++
            (if c.Authorization = "" then []
             else [("X-Auth-Token", c.Authorization)]) }) = .ok req := h
    by_cases hv : validMethod (goToUpper method) = true
    · rw [if_pos hv] at h
      simp only [Except.ok.injEq] at h
      subst h
      refine ⟨rfl, ?_, ?_, ?_, ?_⟩ <;>
        by_cases ha : c.Authorization = "" <;> simp [headerGet, ha]
    · rw [if_neg hv] at h
      exact absurd h (by simp)

/-- Witness for C4: a GET of the ticket path on a fresh client (empty
token) carries the standard headers and no auth header. -/
theorem newRequest_method_and_headers_witness :
    reqTicket.method = goToUpper "get" ∧
    headerGet reqTicket.headers "Content-Type" = some mediaType ∧
    headerGet reqTicket.headers "Accept" = some mediaType ∧
    headerGet reqTicket.headers "User-Agent" = some NewClient.UserAgent ∧
    headerGet reqTicket.headers "X-Auth-Token" =
      (if NewClient.Authorization = "" then none
       else some NewClient.Authorization) :=
  newRequest_method_and_headers NewClient "get" "ticket" none reqTicket
    (by decide)

/- ---------------------------------------------------------------- -/
/- Claim theorems for the Error Classifier and Dispatcher            -/
/- ---------------------------------------------------------------- -/

theorem checkResponse_2xx (unmarshal : String → Except String ErrFields)
    (r : HTTPResponse) (h : 200 ≤ r.statusCode ∧ r.statusCode ≤ 299) :
    CheckResponse unmarshal r = none := by
  unfold CheckResponse
  rw [if_pos h]

theorem checkResponse_non2xx (unmarshal : String → Except String ErrFields)
    (r : HTTPResponse) (h : ¬ (200 ≤ r.statusCode ∧ r.statusCode ≤ 299)) :
    ∃ e, CheckResponse unmarshal r = some e := by
  unfold CheckResponse
  rw [if_neg h]
  rcases hb : r.bodyContents with m | data
  · exact ⟨_, rfl⟩
  · dsimp only
    by_cases hl : data.length > 0
    · rcases hu : unmarshal data with m | f
      · exact ⟨.jsonError m, by rw [if_pos hl]⟩
      · exact ⟨.apiError ⟨r, f.message, f.errors, f.trackingID⟩,
          by rw [if_pos hl]⟩
    · rcases hu : unmarshal data with m | f
      · exact ⟨.apiError ⟨r, "", [], ""⟩, by rw [if_neg hl]⟩
      · exact ⟨.apiError ⟨r, f.message, f.errors, f.trackingID⟩,
          by rw [if_neg hl]⟩

/-- C2: the Error Classifier returns no error exactly when the status is
in [200, 299]; when it is not, Do returns the wrapped response together
with the classifier's non-nil error, and its result does not depend on the
caller-supplied decode destination (no decode is attempted). -/
theorem checkResponse_do_non2xx
    (unmarshal : String → Except String ErrFields) (r : HTTPResponse) :
    (CheckResponse unmarshal r = none ↔
      (200 ≤ r.statusCode ∧ r.statusCode ≤ 299)) ∧
    (¬ (200 ≤ r.statusCode ∧ r.statusCode ≤ 299) →
      ∀ v, (∃ e, CheckResponse unmarshal r = some e ∧
          Do unmarshal (.ok r) v = (some (newResponse r), some e)) ∧
        ∀ v2, Do unmarshal (.ok r) v = Do unmarshal (.ok r) v2) := by
  constructor
  · constructor
    · intro h
      by_contra hc
      obtain ⟨e, he⟩ := checkResponse_non2xx unmarshal r hc
      rw [h] at he
      exact absurd he (by simp)
    · exact checkResponse_2xx unmarshal r
  · intro hc v
    obtain ⟨e, he⟩ := checkResponse_non2xx unmarshal r hc
    constructor
    · refine ⟨e, he, ?_⟩
      unfold Do
      dsimp only
      rw [he]
    · intro v2
      unfold Do
      dsimp only
      rw [he]

/-- Witness for C2: a 404 response with an unparseable body makes Do
return the wrapped response and a non-nil error, with a nil decode
destination. -/
theorem checkResponse_do_non2xx_witness :
    Do uFail (.ok r404) .noDest =
      (some (newResponse r404), some (.jsonError "invalid character")) := by
  obtain ⟨e, he, hd⟩ :=
    (((checkResponse_do_non2xx uFail r404).2 (by decide)) .noDest).1
  have he2 : (some (GoErr.jsonError "invalid character") : Option GoErr) =
      some e := he
  cases he2
  exact hd

/-- C10: Do never returns a nil response together with a nil error; in
particular on a 2xx response whose body copy (writer destination) or JSON
decode (typed destination) fails, Do returns a nil response with that
non-nil error. -/
theorem do_never_nil_nil (unmarshal : String → Except String ErrFields)
    (tr : Except GoErr HTTPResponse) (v : DecodeDest) :
    Do unmarshal tr v ≠ (none, none) ∧
    (∀ r m, tr = .ok r → (200 ≤ r.statusCode ∧ r.statusCode ≤ 299) →
      (v = .writer (.error m) →
        Do unmarshal tr v = (none, some (.copyError m))) ∧
      (v = .target (.error m) →
        Do unmarshal tr v = (none, some (.decodeError m)))) := by
  constructor
  · rcases tr with e | r
    · simp [Do]
    · unfold Do
      rcases hcr : CheckResponse unmarshal r with _ | e
      · rcases v with _ | co | de
        · simp [hcr]
        · rcases co with m | u <;> simp [hcr]
        · rcases de with m | u <;> simp [hcr]
      · simp [hcr]
  · intro r m htr h2xx
    subst htr
    have hcr := checkResponse_2xx unmarshal r h2xx
    constructor
    · intro hv
      subst hv
      unfold Do
      dsimp only
      rw [hcr]
    · intro hv
      subst hv
      unfold Do
      dsimp only
      rw [hcr]

/-- Witness for C10: a 204 response with a failing decode target makes Do
return a nil response and the decode error. -/
theorem do_never_nil_nil_witness :
    Do uFail (.ok r204) (.target (.error "unexpected end of JSON input")) =
      (none, some (.decodeError "unexpected end of JSON input")) :=
  ((do_never_nil_nil uFail (.ok r204)
      (.target (.error "unexpected end of JSON input"))).2 r204
    "unexpected end of JSON input" rfl (by decide)).2 rfl

/-- C3: an API error the Error Classifier constructs from a non-2xx
response renders as the request method, the request URL, the status code
and the parsed message, joined in that order. -/
theorem errorResponse_render_order
    (unmarshal : String → Except String ErrFields) (r : HTTPResponse)
    (er : ErrorResponse)
    (h : CheckResponse unmarshal r = some (.apiError er)) :
    er.render = r.request.method ++ " " ++ r.request.url ++ ": " ++
      toString r.statusCode ++ " " ++ er.message ∧
    ∃ s1 s2 s3, er.render = r.request.method ++ s1 ++ r.request.url ++ s2 ++
      toString r.statusCode ++ s3 ++ er.message := by
  have hresp : er.httpResponse = r := by
    unfold CheckResponse at h
    by_cases hc : 200 ≤ r.statusCode ∧ r.statusCode ≤ 299
    · rw [if_pos hc] at h
      exact absurd h (by simp)
    · rw [if_neg hc] at h
      dsimp only at h
      rcases hb : r.bodyContents with m | data <;> rw [hb] at h <;>
        dsimp only at h
      · simp only [Option.some.injEq, GoErr.apiError.injEq] at h
        rw [← h]
      · by_cases hl : data.length > 0
        · rw [if_pos hl] at h
          rcases hu : unmarshal data with m | f <;> rw [hu] at h
          · exact absurd h (by simp)
          · simp only [Option.some.injEq, GoErr.apiError.injEq] at h
            rw [← h]
        · rw [if_neg hl] at h
          rcases hu : unmarshal data with m | f <;> rw [hu] at h <;>
            simp only [Option.some.injEq, GoErr.apiError.injEq] at h <;>
            rw [← h]
  constructor
  · unfold ErrorResponse.render
    rw [hresp]
  · refine ⟨" ", ": ", " ", ?_⟩
    unfold ErrorResponse.render
    rw [hresp]

/-- Witness for C3, the spec's scenario: a 404 with body carrying message
"not found" renders with method, URL, "404" and "not found" in order. -/
theorem errorResponse_render_order_witness :
    ErrorResponse.render
      { httpResponse := r404nf, message := "not found", errors := [],
        trackingID := "" } =
    r404nf.request.method ++ " " ++ r404nf.request.url ++ ": " ++
      toString r404nf.statusCode ++ " " ++ "not found" :=
  (errorResponse_render_order uNotFound r404nf
    { httpResponse := r404nf, message := "not found", errors := [],
      trackingID := "" } (by decide)).1

/-- C1 is a bug in the code: for a non-2xx response whose body is
non-empty and fails to parse as JSON, CheckResponse returns the
json.Unmarshal error instead of the API error shape — contradicting the
function's own documentation that any other response body is silently
ignored.  This theorem evaluates the model at such an input: the returned
error is the JSON parse error, not an apiError referencing the
response. -/
theorem checkResponse_unparseable_body_returns_json_error :
    CheckResponse uFail r404 = some (.jsonError "invalid character") ∧
    Do uFail (.ok r404) .noDest =
      (some (newResponse r404), some (.jsonError "invalid character")) := by
  constructor <;> rfl
